import Mathlib

/-!
Shallow embedding of the reordering core of plot2Dcluster.py.

The Python module draws a community-label matrix with matplotlib; the
plotting and the random colour generation are the excluded presentation
layer. The embedded part is the majority-rule reordering performed by
plot_com_order1 (rows or columns) and plot_com_order2 (both axes): the
global frequency ranking (np.bincount followed by np.argsort, reversed),
the per-line majority tables, the greedy assignment that builds
row_order and col_order, and the reindexing of the matrix and of the
name lists.

Matrices are lists of rows of natural numbers (the module documents the
labels as non-negative integers). The only runtime error reachable in
the embedded region once the matrix is a rectangular array of such
labels is the IndexError that the name-list comprehensions can raise;
it is modelled with Except. The two sorts are modelled as stable
sorts, with different standing. sorted(..., reverse=True) in Python is
stable by specification, on every input. np.argsort with its default
kind is introsort, which numpy documents as not stable; it runs plain
insertion sort, which is stable, exactly when the array has at most 16
entries (its small-partition regime), and fixes no tie order beyond
that. The model therefore agrees with numpy on count tables of at most
16 entries, while on longer tables it fixes one valid sort order among
several; accordingly, theorems that depend on the tie order of argsort
carry the at-most-16-entries bound, and only properties shared by
every correct sort (being a permutation of the indices, arranging the
counts in sorted order) are stated unconditionally.
-/

namespace Plot2D

/-- np.bincount of a list of labels: the empty list gives the empty
table, otherwise entry v of the table is the number of occurrences of v,
for v from 0 up to the maximum entry of the list. -/
def bincount (l : List Nat) : List Nat :=
  if l = [] then [] else (List.range (l.foldr max 0 + 1)).map (fun v => l.count v)

/-- Index-value pairs (i, l[i]) for i below the length of l. -/
def enumPairs (l : List Nat) : List (Nat × Nat) :=
  (List.range l.length).map (fun i => (i, l.getD i 0))

/-- Stable insertion (ascending in the second component): the inserted
pair goes before every pair with an equal key. -/
def insAsc (p : Nat × Nat) : List (Nat × Nat) → List (Nat × Nat)
  | [] => [p]
  | q :: qs => if p.2 ≤ q.2 then p :: q :: qs else q :: insAsc p qs

/-- Stable ascending insertion sort by the second component. -/
def sortAsc : List (Nat × Nat) → List (Nat × Nat)
  | [] => []
  | p :: ps => insAsc p (sortAsc ps)

/-- np.argsort on a count table: the indices of the table sorted by
value ascending. The model keeps equal values in index order, which is
what numpy computes whenever the table has at most 16 entries (the
insertion-sort regime of its default introsort); on longer tables numpy
leaves the order of equal values unspecified and this definition fixes
one valid outcome, so theorems about the tie order are stated only for
tables of at most 16 entries. -/
def argsort (l : List Nat) : List Nat := (sortAsc (enumPairs l)).map Prod.fst

/-- all_count = np.bincount(com_data.reshape(com_data.size)). -/
def all_count (com_data : List (List Nat)) : List Nat := bincount com_data.flatten

/-- all_order = np.argsort(all_count)[::-1], the ranking list. -/
def all_order (com_data : List (List Nat)) : List Nat :=
  (argsort (all_count com_data)).reverse

/-- n_com = len(all_order). -/
def n_com (com_data : List (List Nat)) : Nat := (all_order com_data).length

/-- Number of columns, the length of the first row (numpy shape is
rectangular; rectangularity is a hypothesis of the general theorems). -/
def n_col (com_data : List (List Nat)) : Nat := (com_data.getD 0 []).length

/-- Column i of the matrix, com_data[:,i]. -/
def colAt (com_data : List (List Nat)) (i : Nat) : List Nat :=
  com_data.map (fun r => r.getD i 0)

/-- majority[j] for the row pass: the (row index, count) pairs recorded
for label j, in the recording order of the source (ascending row index).
A pair (i, k) is recorded when k = rowcount[j] equals max(rowcount) for
rowcount = np.bincount of row i; enumerate(rowcount) only yields indices
below len(rowcount). -/
def majorityRow (com_data : List (List Nat)) (j : Nat) : List (Nat × Nat) :=
  (List.range com_data.length).filterMap (fun i =>
    let rowcount := bincount (com_data.getD i [])
    if j < rowcount.length ∧ rowcount.getD j 0 = rowcount.foldr max 0 then
      some (i, rowcount.getD j 0) else none)

/-- majority[j] for the column pass, mirroring majorityRow on columns. -/
def majorityCol (com_data : List (List Nat)) (j : Nat) : List (Nat × Nat) :=
  (List.range (n_col com_data)).filterMap (fun i =>
    let colcount := bincount (colAt com_data i)
    if j < colcount.length ∧ colcount.getD j 0 = colcount.foldr max 0 then
      some (i, colcount.getD j 0) else none)

/-- Stable insertion (descending in the second component): the inserted
pair goes before every pair with an equal or smaller key. -/
def insDesc (p : Nat × Nat) : List (Nat × Nat) → List (Nat × Nat)
  | [] => [p]
  | q :: qs => if q.2 ≤ p.2 then p :: q :: qs else q :: insDesc p qs

/-- sorted(temp1.items(), key=operator.itemgetter(1), reverse=True):
stable descending sort by the count component. -/
def sortDesc : List (Nat × Nat) → List (Nat × Nat)
  | [] => []
  | p :: ps => insDesc p (sortDesc ps)

/-- One step of the greedy assignment: for a candidate pair (m, n),
append m to the order and erase it from unreach when m is in unreach,
otherwise leave the state unchanged. -/
def claimStep (acc : List Nat × List Nat) (p : Nat × Nat) : List Nat × List Nat :=
  if p.1 ∈ acc.2 then (acc.1 ++ [p.1], acc.2.erase p.1) else acc

/-- The greedy assignment loop of the source: for i in
range(len(all_order)), sort majority[i] descending by count and walk the
sorted pairs with claimStep, starting from the empty order and
unreach = set(range(size)). Note the loop index i is used directly as
the key into the majority table. -/
def greedyPass (maj : Nat → List (Nat × Nat)) (nlab size : Nat) : List Nat :=
  ((List.range nlab).foldl (fun acc j => (sortDesc (maj j)).foldl claimStep acc)
    ([], List.range size)).1

/-- row_order as computed by the source. -/
def rowOrder (com_data : List (List Nat)) : List Nat :=
  greedyPass (majorityRow com_data) (n_com com_data) com_data.length

/-- col_order as computed by the source (plot_com_order2 builds it from
com_data, the matrix before row reordering). -/
def colOrder (com_data : List (List Nat)) : List Nat :=
  greedyPass (majorityCol com_data) (n_com com_data) (n_col com_data)

/-- com_data[row_order,:]. -/
def applyRowPerm (com_data : List (List Nat)) (ord : List Nat) : List (List Nat) :=
  ord.map (fun i => com_data.getD i [])

/-- com_data[:,col_order]. -/
def applyColPerm (com_data : List (List Nat)) (ord : List Nat) : List (List Nat) :=
  com_data.map (fun r => ord.map (fun j => r.getD j 0))

/-- The list comprehension [names[i] for i in ord]: it raises IndexError
when some index reaches past the end of the name list, and otherwise
returns the reindexed list. -/
def permuteNames (names : List String) (ord : List Nat) : Except String (List String) :=
  if ord.all (fun i => i < names.length) then
    .ok (ord.map (fun i => names.getD i ""))
  else .error "IndexError: list index out of range"

/-- plot_com_order1 restricted to its computational content: the
reordered matrix, the two name lists (one of them reindexed by the
computed order), and the order itself. Colour generation and plotting
are the excluded presentation layer. -/
def plot_com_order1 (com_data : List (List Nat)) (rownames colnames : List String)
    (row : Bool) : Except String (List (List Nat) × List String × List String × List Nat) :=
  if row then
    match permuteNames rownames (rowOrder com_data) with
    | .error e => .error e
    | .ok rn => .ok (applyRowPerm com_data (rowOrder com_data), rn, colnames,
        rowOrder com_data)
  else
    match permuteNames colnames (colOrder com_data) with
    | .error e => .error e
    | .ok cn => .ok (applyColPerm com_data (colOrder com_data), rownames, cn,
        colOrder com_data)

/-- plot_com_order2 restricted to its computational content: the source
first builds row_order and new_data = com_data[row_order,:], then builds
col_order from the columns of com_data and forms new_data[:,col_order],
and finally reindexes rownames and then colnames. -/
def plot_com_order2 (com_data : List (List Nat)) (rownames colnames : List String) :
    Except String (List (List Nat) × List String × List String × List Nat × List Nat) :=
  match permuteNames rownames (rowOrder com_data) with
  | .error e => .error e
  | .ok rn =>
    match permuteNames colnames (colOrder com_data) with
    | .error e => .error e
    | .ok cn => .ok (applyColPerm (applyRowPerm com_data (rowOrder com_data))
        (colOrder com_data), rn, cn, rowOrder com_data, colOrder com_data)

/-- Modelled from the spec: section 4.3 describes the column pass of the
combined mode as run on the row-permuted matrix; this definition follows
those words, to be compared with colOrder of the original matrix, which
is what plot_com_order2 computes. -/
def colOrderOnRowPermuted (com_data : List (List Nat)) : List Nat :=
  colOrder (applyRowPerm com_data (rowOrder com_data))

/-! Relations used to state how the two stable sorts order their output. -/

/-- Strictly increasing first components (the recording order of the
majority tables and of enumPairs). -/
def ltIdx (p q : Nat × Nat) : Prop := p.1 < q.1

/-- Strictly before in the stable ascending sort: smaller key, or equal
key and smaller original index. -/
def ascKey (p q : Nat × Nat) : Prop := p.2 < q.2 ∨ (p.2 = q.2 ∧ p.1 < q.1)

/-- Strictly before in the stable descending sort: larger key, or equal
key and smaller original index. -/
def descKey (p q : Nat × Nat) : Prop := q.2 < p.2 ∨ (p.2 = q.2 ∧ p.1 < q.1)

theorem insAsc_perm (p : Nat × Nat) (l : List (Nat × Nat)) :
    (insAsc p l).Perm (p :: l) := by
  induction l with
  | nil => exact List.Perm.refl _
  | cons q qs ih =>
    by_cases h : p.2 ≤ q.2
    · simp [insAsc, h]
    · simp only [insAsc, if_neg h]
      exact (ih.cons q).trans (List.Perm.swap p q qs)

theorem sortAsc_perm (l : List (Nat × Nat)) : (sortAsc l).Perm l := by
  induction l with
  | nil => exact List.Perm.refl _
  | cons p ps ih => exact (insAsc_perm p (sortAsc ps)).trans (ih.cons p)

theorem insDesc_perm (p : Nat × Nat) (l : List (Nat × Nat)) :
    (insDesc p l).Perm (p :: l) := by
  induction l with
  | nil => exact List.Perm.refl _
  | cons q qs ih =>
    by_cases h : q.2 ≤ p.2
    · simp [insDesc, h]
    · simp only [insDesc, if_neg h]
      exact (ih.cons q).trans (List.Perm.swap p q qs)

theorem sortDesc_perm (l : List (Nat × Nat)) : (sortDesc l).Perm l := by
  induction l with
  | nil => exact List.Perm.refl _
  | cons p ps ih => exact (insDesc_perm p (sortDesc ps)).trans (ih.cons p)

theorem insAsc_pairwise {p : Nat × Nat} {l : List (Nat × Nat)}
    (hl : l.Pairwise ascKey) (hp : ∀ q ∈ l, p.1 < q.1) :
    (insAsc p l).Pairwise ascKey := by
  induction l with
  | nil => simp [insAsc]
  | cons q qs ih =>
    rcases List.pairwise_cons.1 hl with ⟨hq, hqs⟩
    by_cases h : p.2 ≤ q.2
    · simp only [insAsc, if_pos h]
      refine List.pairwise_cons.2 ⟨?_, hl⟩
      intro r hr
      rcases List.mem_cons.1 hr with rfl | hr'
      · rcases Nat.lt_or_ge p.2 r.2 with hlt | hge
        · exact Or.inl hlt
        · exact Or.inr ⟨Nat.le_antisymm h hge, hp r (List.mem_cons_self r qs)⟩
      · have hqr : q.2 ≤ r.2 := by
          rcases hq r hr' with h1 | ⟨h1, _⟩
          · exact Nat.le_of_lt h1
          · exact Nat.le_of_eq h1
        rcases Nat.lt_or_ge p.2 r.2 with hlt | hge
        · exact Or.inl hlt
        · exact Or.inr ⟨Nat.le_antisymm (Nat.le_trans h hqr) hge,
            hp r (List.mem_cons_of_mem q hr')⟩
    · simp only [insAsc, if_neg h]
      refine List.pairwise_cons.2
        ⟨?_, ih hqs (fun r hr => hp r (List.mem_cons_of_mem q hr))⟩
      intro r hr
      have hr2 : r = p ∨ r ∈ qs := by
        have := (insAsc_perm p qs).mem_iff.1 hr
        simpa using this
      rcases hr2 with rfl | hr'
      · exact Or.inl (Nat.lt_of_not_le h)
      · exact hq r hr'

theorem sortAsc_pairwise {l : List (Nat × Nat)} (hl : l.Pairwise ltIdx) :
    (sortAsc l).Pairwise ascKey := by
  induction l with
  | nil => simp [sortAsc]
  | cons p ps ih =>
    rcases List.pairwise_cons.1 hl with ⟨hp, hps⟩
    exact insAsc_pairwise (ih hps)
      (fun q hq => hp q ((sortAsc_perm ps).mem_iff.1 hq))

theorem insDesc_pairwise {p : Nat × Nat} {l : List (Nat × Nat)}
    (hl : l.Pairwise descKey) (hp : ∀ q ∈ l, p.1 < q.1) :
    (insDesc p l).Pairwise descKey := by
  induction l with
  | nil => simp [insDesc]
  | cons q qs ih =>
    rcases List.pairwise_cons.1 hl with ⟨hq, hqs⟩
    by_cases h : q.2 ≤ p.2
    · simp only [insDesc, if_pos h]
      refine List.pairwise_cons.2 ⟨?_, hl⟩
      intro r hr
      rcases List.mem_cons.1 hr with rfl | hr'
      · rcases Nat.lt_or_ge r.2 p.2 with hlt | hge
        · exact Or.inl hlt
        · exact Or.inr ⟨Nat.le_antisymm hge h, hp r (List.mem_cons_self r qs)⟩
      · have hqr : r.2 ≤ q.2 := by
          rcases hq r hr' with h1 | ⟨h1, _⟩
          · exact Nat.le_of_lt h1
          · exact Nat.le_of_eq h1.symm
        rcases Nat.lt_or_ge r.2 p.2 with hlt | hge
        · exact Or.inl hlt
        · exact Or.inr ⟨Nat.le_antisymm hge (Nat.le_trans hqr h),
            hp r (List.mem_cons_of_mem q hr')⟩
    · simp only [insDesc, if_neg h]
      refine List.pairwise_cons.2
        ⟨?_, ih hqs (fun r hr => hp r (List.mem_cons_of_mem q hr))⟩
      intro r hr
      have hr2 : r = p ∨ r ∈ qs := by
        have := (insDesc_perm p qs).mem_iff.1 hr
        simpa using this
      rcases hr2 with rfl | hr'
      · exact Or.inl (Nat.lt_of_not_le h)
      · exact hq r hr'

theorem sortDesc_pairwise {l : List (Nat × Nat)} (hl : l.Pairwise ltIdx) :
    (sortDesc l).Pairwise descKey := by
  induction l with
  | nil => simp [sortDesc]
  | cons p ps ih =>
    rcases List.pairwise_cons.1 hl with ⟨hp, hps⟩
    exact insDesc_pairwise (ih hps)
      (fun q hq => hp q ((sortDesc_perm ps).mem_iff.1 hq))

/-! Facts about enumPairs, bincount and the fold computing maxima. -/

theorem enumPairs_map_fst (l : List Nat) :
    (enumPairs l).map Prod.fst = List.range l.length := by
  rw [enumPairs, List.map_map]
  have h : (Prod.fst ∘ fun i => (i, l.getD i 0)) = id := by
    funext i
    rfl
  rw [h, List.map_id]

theorem enumPairs_pairwise (l : List Nat) : (enumPairs l).Pairwise ltIdx := by
  exact List.Pairwise.map _ (fun a b h => h) (List.pairwise_lt_range l.length)

theorem mem_enumPairs {l : List Nat} {p : Nat × Nat} (h : p ∈ enumPairs l) :
    p.1 < l.length ∧ p.2 = l.getD p.1 0 := by
  rcases List.mem_map.1 h with ⟨i, hi, rfl⟩
  exact ⟨List.mem_range.1 hi, rfl⟩

theorem bincount_length {l : List Nat} (h : l ≠ []) :
    (bincount l).length = l.foldr max 0 + 1 := by
  simp [bincount, h]

theorem bincount_getD {l : List Nat} {v : Nat} (hv : v < (bincount l).length) :
    (bincount l).getD v 0 = l.count v := by
  by_cases h : l = []
  · simp [bincount, h] at hv
  · have hv' : v < l.foldr max 0 + 1 := by rwa [bincount_length h] at hv
    simp only [bincount, if_neg h]
    rw [List.getD_eq_getElem _ _ (by simpa using hv')]
    simp

theorem le_foldr_max {a : Nat} {l : List Nat} (h : a ∈ l) : a ≤ l.foldr max 0 := by
  induction l with
  | nil => cases h
  | cons b t ih =>
    rcases List.mem_cons.1 h with rfl | h'
    · exact Nat.le_max_left _ _
    · exact Nat.le_trans (ih h') (Nat.le_max_right _ _)

theorem foldr_max_eq_zero_or_mem (l : List Nat) :
    l.foldr max 0 = 0 ∨ l.foldr max 0 ∈ l := by
  induction l with
  | nil => exact Or.inl rfl
  | cons a t ih =>
    rcases Nat.le_total a (t.foldr max 0) with h | h
    · rw [List.foldr_cons, Nat.max_eq_right h]
      rcases ih with h0 | hm
      · exact Or.inl h0
      · exact Or.inr (List.mem_cons_of_mem a hm)
    · rw [List.foldr_cons, Nat.max_eq_left h]
      exact Or.inr (List.mem_cons_self a t)

theorem foldr_max_le {l1 l2 : List Nat} (h : ∀ a ∈ l1, a = 0 ∨ a ∈ l2) :
    l1.foldr max 0 ≤ l2.foldr max 0 := by
  induction l1 with
  | nil => exact Nat.zero_le _
  | cons a t ih =>
    rw [List.foldr_cons]
    refine Nat.max_le.2 ⟨?_, ih (fun b hb => h b (List.mem_cons_of_mem a hb))⟩
    rcases h a (List.mem_cons_self a t) with rfl | hm
    · exact Nat.zero_le _
    · exact le_foldr_max hm

theorem foldr_max_perm {l1 l2 : List Nat} (h : l1.Perm l2) :
    l1.foldr max 0 = l2.foldr max 0 := by
  induction h with
  | nil => rfl
  | cons x _ ih => simp [ih]
  | swap x y t => simp [Nat.max_left_comm]
  | trans _ _ ih1 ih2 => exact ih1.trans ih2

theorem bincount_perm {l1 l2 : List Nat} (h : l1.Perm l2) :
    bincount l1 = bincount l2 := by
  by_cases h1 : l1 = []
  · subst h1
    rw [h.nil_eq]
  · have h2 : l2 ≠ [] := by
      intro h2
      rw [h2] at h
      exact h1 h.eq_nil
    simp only [bincount, if_neg h1, if_neg h2, foldr_max_perm h]
    exact List.map_congr_left (fun v _ => h.count_eq v)

/-- Reindexing a list by the full ascending range of its indices gives
the list back. -/
theorem map_getD_range {α : Type} (M : List α) (d : α) :
    (List.range M.length).map (fun i => M.getD i d) = M := by
  induction M with
  | nil => simp
  | cons a t ih =>
    rw [List.length_cons, List.range_succ_eq_map, List.map_cons, List.map_map]
    have : (fun i => (a :: t).getD i d) ∘ Nat.succ = fun i => t.getD i d := by
      funext i
      simp [Function.comp, List.getD_cons_succ]
    rw [this, ih]
    simp

/-- Flattening is invariant, up to permutation, under permuting the
outer list. -/
theorem perm_flatten_of_perm {α : Type} {l1 l2 : List (List α)} (h : l1.Perm l2) :
    l1.flatten.Perm l2.flatten := by
  induction h with
  | nil => exact List.Perm.refl _
  | cons x _ ih => exact ih.append_left x
  | swap x y t =>
    simp only [List.flatten_cons]
    rw [← List.append_assoc, ← List.append_assoc]
    exact (List.perm_append_comm).append_right t.flatten
  | trans _ _ ih1 ih2 => exact ih1.trans ih2

/-- Flattening is invariant, up to permutation, when every outer entry
is replaced by a permutation of itself. -/
theorem perm_flatten_of_rows {α : Type} {l1 l2 : List (List α)}
    (hlen : l1.length = l2.length)
    (h : ∀ i, (l1.getD i []).Perm (l2.getD i [])) : l1.flatten.Perm l2.flatten := by
  induction l1 generalizing l2 with
  | nil =>
    cases l2 with
    | nil => exact List.Perm.refl _
    | cons b t2 => cases hlen
  | cons a t1 ih =>
    cases l2 with
    | nil => cases hlen
    | cons b t2 =>
      simp only [List.flatten_cons]
      refine List.Perm.append ?_ (ih (by simpa using hlen) (fun i => h (i + 1)))
      simpa using h 0

/-! Facts about the greedy assignment loop. -/

theorem claimStep_snd_subset (acc : List Nat × List Nat) (p : Nat × Nat) :
    (claimStep acc p).2 ⊆ acc.2 := by
  unfold claimStep
  by_cases h : p.1 ∈ acc.2
  · simp only [if_pos h]
    exact List.erase_subset _ _
  · simp [if_neg h]

theorem foldl_claimStep_snd_subset (ps : List (Nat × Nat)) (acc : List Nat × List Nat) :
    (ps.foldl claimStep acc).2 ⊆ acc.2 := by
  induction ps generalizing acc with
  | nil => exact fun x h => h
  | cons p ps ih =>
    exact fun x h => claimStep_snd_subset acc p (ih (claimStep acc p) h)

theorem claimStep_nodup {acc : List Nat × List Nat} {p : Nat × Nat}
    (h : acc.2.Nodup) : (claimStep acc p).2.Nodup := by
  unfold claimStep
  by_cases hm : p.1 ∈ acc.2
  · simp only [if_pos hm]
    exact h.erase _
  · simpa [if_neg hm] using h

theorem foldl_claimStep_nodup (ps : List (Nat × Nat)) {acc : List Nat × List Nat}
    (h : acc.2.Nodup) : (ps.foldl claimStep acc).2.Nodup := by
  induction ps generalizing acc with
  | nil => exact h
  | cons p ps ih => exact ih (claimStep_nodup h)

theorem claimStep_perm {size : Nat} {acc : List Nat × List Nat} (p : Nat × Nat)
    (h : (acc.1 ++ acc.2).Perm (List.range size)) :
    ((claimStep acc p).1 ++ (claimStep acc p).2).Perm (List.range size) := by
  unfold claimStep
  by_cases hm : p.1 ∈ acc.2
  · simp only [if_pos hm]
    refine List.Perm.trans ?_ h
    have heq : (acc.1 ++ [p.1]) ++ acc.2.erase p.1
        = acc.1 ++ (p.1 :: acc.2.erase p.1) := by simp
    rw [heq]
    exact (List.perm_cons_erase hm).symm.append_left acc.1
  · simp only [if_neg hm]
    exact h

theorem foldl_claimStep_perm (ps : List (Nat × Nat)) {size : Nat}
    {acc : List Nat × List Nat} (h : (acc.1 ++ acc.2).Perm (List.range size)) :
    (((ps.foldl claimStep acc).1) ++ ((ps.foldl claimStep acc).2)).Perm
      (List.range size) := by
  induction ps generalizing acc with
  | nil => exact h
  | cons p ps ih => exact ih (claimStep_perm p h)

theorem claimStep_not_mem {acc : List Nat × List Nat} {p : Nat × Nat}
    (h : acc.2.Nodup) : p.1 ∉ (claimStep acc p).2 := by
  unfold claimStep
  by_cases hm : p.1 ∈ acc.2
  · simp only [if_pos hm]
    exact h.not_mem_erase
  · simpa [if_neg hm] using hm

theorem foldl_claimStep_not_mem {ps : List (Nat × Nat)} {p : Nat × Nat}
    (hp : p ∈ ps) {acc : List Nat × List Nat} (h : acc.2.Nodup) :
    p.1 ∉ (ps.foldl claimStep acc).2 := by
  induction ps generalizing acc with
  | nil => cases hp
  | cons q qs ih =>
    rcases List.mem_cons.1 hp with rfl | hp'
    · intro hmem
      exact claimStep_not_mem h (foldl_claimStep_snd_subset qs (claimStep acc p) hmem)
    · exact ih hp' (claimStep_nodup h)

/-- After the whole greedy loop, a line index covered by some processed
label is no longer unreached (and an index already claimed stays
claimed). -/
theorem greedy_not_mem_final (maj : Nat → List (Nat × Nat)) (js : List Nat)
    (i : Nat) :
    ∀ acc : List Nat × List Nat, acc.2.Nodup →
      ((∃ j ∈ js, ∃ c, (i, c) ∈ maj j) ∨ i ∉ acc.2) →
      i ∉ (js.foldl (fun acc j => (sortDesc (maj j)).foldl claimStep acc) acc).2 := by
  induction js with
  | nil =>
    intro acc _ hcov
    rcases hcov with ⟨j, hj, _⟩ | hmem
    · cases hj
    · exact hmem
  | cons j rest ih =>
    intro acc hnd hcov
    simp only [List.foldl_cons]
    set acc' := (sortDesc (maj j)).foldl claimStep acc with hacc'
    have hnd' : acc'.2.Nodup := foldl_claimStep_nodup _ hnd
    rcases hcov with ⟨j', hj', c, hc⟩ | hmem
    · rcases List.mem_cons.1 hj' with rfl | hj''
      · have : (i, c) ∈ sortDesc (maj j') := (sortDesc_perm (maj j')).mem_iff.2 hc
        exact ih acc' hnd' (Or.inr (foldl_claimStep_not_mem this hnd))
      · exact ih acc' hnd' (Or.inl ⟨j', hj'', c, hc⟩)
    · have : i ∉ acc'.2 := fun hmem' => hmem (foldl_claimStep_snd_subset _ _ hmem')
      exact ih acc' hnd' (Or.inr this)

theorem greedy_fst_lt (maj : Nat → List (Nat × Nat)) (js : List Nat) (size : Nat) :
    ∀ acc : List Nat × List Nat,
      (∀ x ∈ acc.1, x < size) → (∀ x ∈ acc.2, x < size) →
      ∀ x ∈ (js.foldl (fun acc j => (sortDesc (maj j)).foldl claimStep acc) acc).1,
        x < size := by
  have step : ∀ (ps : List (Nat × Nat)) (acc : List Nat × List Nat),
      (∀ x ∈ acc.1, x < size) → (∀ x ∈ acc.2, x < size) →
      (∀ x ∈ (ps.foldl claimStep acc).1, x < size) ∧
        (∀ x ∈ (ps.foldl claimStep acc).2, x < size) := by
    intro ps
    induction ps with
    | nil => exact fun acc h1 h2 => ⟨h1, h2⟩
    | cons p ps ih =>
      intro acc h1 h2
      refine ih (claimStep acc p) ?_ ?_
      · unfold claimStep
        by_cases hm : p.1 ∈ acc.2
        · simp only [if_pos hm]
          intro x hx
          rcases List.mem_append.1 hx with hx' | hx'
          · exact h1 x hx'
          · have hxp := List.mem_singleton.1 hx'
            subst hxp
            exact h2 _ hm
        · simpa [if_neg hm] using h1
      · exact fun x hx => h2 x (claimStep_snd_subset acc p hx)
  induction js with
  | nil => exact fun acc h1 _ => h1
  | cons j rest ih =>
    intro acc h1 h2
    simp only [List.foldl_cons]
    rcases step (sortDesc (maj j)) acc h1 h2 with ⟨h1', h2'⟩
    exact ih _ h1' h2'

/-- The core permutation guarantee of the greedy loop: when every line
index below size appears in the majority table of some label below
nlab, the produced order is a permutation of range size. -/
theorem greedyPass_perm {maj : Nat → List (Nat × Nat)} {nlab size : Nat}
    (hcov : ∀ i, i < size → ∃ j, j < nlab ∧ ∃ c, (i, c) ∈ maj j) :
    (greedyPass maj nlab size).Perm (List.range size) := by
  unfold greedyPass
  set final := (List.range nlab).foldl
    (fun acc j => (sortDesc (maj j)).foldl claimStep acc) ([], List.range size)
    with hfinal
  have hperm : (final.1 ++ final.2).Perm (List.range size) := by
    rw [hfinal]
    have init : ((([] : List Nat), List.range size).1 ++
        (([] : List Nat), List.range size).2).Perm (List.range size) := by
      simp
    clear hcov
    generalize (([] : List Nat), List.range size) = acc at init ⊢
    induction (List.range nlab) generalizing acc with
    | nil => exact init
    | cons j rest ih =>
      simp only [List.foldl_cons]
      exact ih _ (foldl_claimStep_perm _ init)
  have hempty : final.2 = [] := by
    rw [List.eq_nil_iff_forall_not_mem]
    intro i hi
    have hir : i ∈ List.range size :=
      hperm.mem_iff.1 (List.mem_append.2 (Or.inr hi))
    rcases hcov i (List.mem_range.1 hir) with ⟨j, hj, c, hc⟩
    exact greedy_not_mem_final maj (List.range nlab) i ([], List.range size)
      (List.nodup_range size)
      (Or.inl ⟨j, List.mem_range.2 hj, c, hc⟩) hi
  rw [hempty] at hperm
  simpa using hperm

/-! Coverage: every axis line appears in the majority table of one of
the labels 0..n_com-1, so the greedy loop claims it. -/

theorem enumPairs_length (l : List Nat) : (enumPairs l).length = l.length := by
  simp [enumPairs]

theorem n_com_eq (M : List (List Nat)) : n_com M = (all_count M).length := by
  unfold n_com all_order argsort
  rw [List.length_reverse, List.length_map, (sortAsc_perm _).length_eq,
    enumPairs_length]

theorem foldr_max_attained {l : List Nat} (h : l ≠ []) :
    ∃ j, j < l.length ∧ l.getD j 0 = l.foldr max 0 := by
  rcases foldr_max_eq_zero_or_mem l with h0 | hm
  · have hlen : 0 < l.length := List.length_pos.2 h
    refine ⟨0, hlen, ?_⟩
    rw [h0]
    have hhead : l.getD 0 0 ∈ l := by
      rw [List.getD_eq_getElem _ _ hlen]
      exact List.getElem_mem hlen
    have := le_foldr_max hhead
    omega
  · rcases List.getElem_of_mem hm with ⟨j, hj, hge⟩
    refine ⟨j, hj, ?_⟩
    rw [List.getD_eq_getElem _ _ hj]
    exact hge

theorem majorityRow_coverage {M : List (List Nat)} (hne : ∀ r ∈ M, r ≠ [])
    (i : Nat) (hi : i < M.length) :
    ∃ j, j < n_com M ∧ ∃ c, (i, c) ∈ majorityRow M j := by
  have hri : M.getD i [] ∈ M := by
    rw [List.getD_eq_getElem _ _ hi]
    exact List.getElem_mem hi
  have hr : M.getD i [] ≠ [] := hne _ hri
  have hbc : bincount (M.getD i []) ≠ [] := by
    intro hb
    have := bincount_length hr
    rw [hb] at this
    simp at this
  rcases foldr_max_attained hbc with ⟨j, hj, hmax⟩
  refine ⟨j, ?_, (bincount (M.getD i [])).getD j 0, ?_⟩
  · have h1 : (bincount (M.getD i [])).length ≤ (all_count M).length := by
      have hfne : M.flatten ≠ [] := by
        rcases List.exists_mem_of_ne_nil _ hr with ⟨a, ha⟩
        exact List.ne_nil_of_mem (List.mem_flatten.2 ⟨_, hri, ha⟩)
      rw [bincount_length hr, all_count, bincount_length hfne]
      have : (M.getD i []).foldr max 0 ≤ M.flatten.foldr max 0 :=
        foldr_max_le (fun a ha => Or.inr (List.mem_flatten.2 ⟨_, hri, ha⟩))
      omega
    rw [n_com_eq]
    omega
  · unfold majorityRow
    rw [List.mem_filterMap]
    refine ⟨i, List.mem_range.2 hi, ?_⟩
    simp only [if_pos (And.intro hj hmax)]

theorem majorityCol_coverage {M : List (List Nat)} (hM : 0 < M.length)
    (i : Nat) (hi : i < n_col M) :
    ∃ j, j < n_com M ∧ ∃ c, (i, c) ∈ majorityCol M j := by
  have hcne : colAt M i ≠ [] := by
    unfold colAt
    intro h
    rw [← List.length_eq_zero] at h
    rw [List.length_map] at h
    omega
  have hbc : bincount (colAt M i) ≠ [] := by
    intro hb
    have := bincount_length hcne
    rw [hb] at this
    simp at this
  rcases foldr_max_attained hbc with ⟨j, hj, hmax⟩
  refine ⟨j, ?_, (bincount (colAt M i)).getD j 0, ?_⟩
  · have hrow0 : M.getD 0 [] ∈ M := by
      rw [List.getD_eq_getElem _ _ hM]
      exact List.getElem_mem hM
    have hrow0ne : M.getD 0 [] ≠ [] := by
      intro h0
      rw [n_col, h0] at hi
      simp at hi
    have hfne : M.flatten ≠ [] := by
      rcases List.exists_mem_of_ne_nil _ hrow0ne with ⟨a, ha⟩
      exact List.ne_nil_of_mem (List.mem_flatten.2 ⟨_, hrow0, ha⟩)
    have h1 : (bincount (colAt M i)).length ≤ (all_count M).length := by
      rw [bincount_length hcne, all_count, bincount_length hfne]
      have : (colAt M i).foldr max 0 ≤ M.flatten.foldr max 0 := by
        refine foldr_max_le ?_
        intro a ha
        rcases List.mem_map.1 ha with ⟨r, hr, rfl⟩
        by_cases hlt : i < r.length
        · refine Or.inr (List.mem_flatten.2 ⟨r, hr, ?_⟩)
          rw [List.getD_eq_getElem _ _ hlt]
          exact List.getElem_mem hlt
        · left
          rw [List.getD_eq_default _ _ (Nat.le_of_not_lt hlt)]
      omega
    rw [n_com_eq]
    omega
  · unfold majorityCol
    rw [List.mem_filterMap]
    refine ⟨i, List.mem_range.2 hi, ?_⟩
    simp only [if_pos (And.intro hj hmax)]

/-- row_order is a permutation of the row indices whenever every row is
nonempty (the region where the Python code runs without error). -/
theorem rowOrder_perm {M : List (List Nat)} (hne : ∀ r ∈ M, r ≠ []) :
    (rowOrder M).Perm (List.range M.length) :=
  greedyPass_perm (majorityRow_coverage hne)

/-- col_order is a permutation of the column indices whenever the matrix
has at least one row. -/
theorem colOrder_perm {M : List (List Nat)} (hM : 0 < M.length) :
    (colOrder M).Perm (List.range (n_col M)) :=
  greedyPass_perm (majorityCol_coverage hM)

theorem mem_rowOrder_lt {M : List (List Nat)} {x : Nat} (h : x ∈ rowOrder M) :
    x < M.length := by
  unfold rowOrder greedyPass at h
  exact greedy_fst_lt (majorityRow M) (List.range (n_com M)) M.length
    ([], List.range M.length) (by intro x hx; cases hx)
    (by intro x hx; exact List.mem_range.1 hx) x h

theorem mem_colOrder_lt {M : List (List Nat)} {x : Nat} (h : x ∈ colOrder M) :
    x < n_col M := by
  unfold colOrder greedyPass at h
  exact greedy_fst_lt (majorityCol M) (List.range (n_com M)) (n_col M)
    ([], List.range (n_col M)) (by intro x hx; cases hx)
    (by intro x hx; exact List.mem_range.1 hx) x h

/-! Invariance of the column pass under any permutation of the rows. -/

theorem applyRowPerm_flatten_perm {M : List (List Nat)} {ord : List Nat}
    (h : ord.Perm (List.range M.length)) :
    (applyRowPerm M ord).flatten.Perm M.flatten := by
  have hmap : (applyRowPerm M ord).Perm
      ((List.range M.length).map (fun i => M.getD i [])) := h.map _
  rw [map_getD_range M []] at hmap
  exact perm_flatten_of_perm hmap

theorem all_count_applyRowPerm {M : List (List Nat)} {ord : List Nat}
    (h : ord.Perm (List.range M.length)) :
    all_count (applyRowPerm M ord) = all_count M :=
  bincount_perm (applyRowPerm_flatten_perm h)

theorem colAt_applyRowPerm (M : List (List Nat)) (ord : List Nat) (i : Nat) :
    colAt (applyRowPerm M ord) i = ord.map (fun k => (M.getD k []).getD i 0) := by
  simp [colAt, applyRowPerm, List.map_map, Function.comp]

theorem colAt_eq_range_map (M : List (List Nat)) (i : Nat) :
    colAt M i = (List.range M.length).map (fun k => (M.getD k []).getD i 0) := by
  conv_lhs => rw [colAt, ← map_getD_range M []]
  rw [List.map_map]
  rfl

theorem colAt_perm {M : List (List Nat)} {ord : List Nat}
    (h : ord.Perm (List.range M.length)) (i : Nat) :
    (colAt (applyRowPerm M ord) i).Perm (colAt M i) := by
  rw [colAt_applyRowPerm, colAt_eq_range_map]
  exact h.map _

theorem n_col_applyRowPerm {M : List (List Nat)} {ord : List Nat}
    (h : ord.Perm (List.range M.length)) (hM : 0 < M.length)
    (hrect : ∀ r ∈ M, r.length = n_col M) :
    n_col (applyRowPerm M ord) = n_col M := by
  have hlen : ord.length = M.length := h.length_eq.trans (List.length_range _)
  have hpos : 0 < ord.length := by omega
  have h0 : ord.getD 0 0 ∈ ord := by
    rw [List.getD_eq_getElem _ _ hpos]
    exact List.getElem_mem hpos
  have h0lt : ord.getD 0 0 < M.length := List.mem_range.1 (h.mem_iff.1 h0)
  have hrow : M.getD (ord.getD 0 0) [] ∈ M := by
    rw [List.getD_eq_getElem _ _ h0lt]
    exact List.getElem_mem h0lt
  have : (applyRowPerm M ord).getD 0 [] = M.getD (ord.getD 0 0) [] := by
    unfold applyRowPerm
    rw [List.getD_eq_getElem _ _ (by simpa using hpos),
      List.getElem_map, ← List.getD_eq_getElem _ _ hpos]
  rw [n_col, this]
  exact hrect _ hrow

theorem majorityCol_applyRowPerm {M : List (List Nat)} {ord : List Nat}
    (h : ord.Perm (List.range M.length)) (hM : 0 < M.length)
    (hrect : ∀ r ∈ M, r.length = n_col M) :
    majorityCol (applyRowPerm M ord) = majorityCol M := by
  funext j
  unfold majorityCol
  rw [n_col_applyRowPerm h hM hrect]
  refine List.filterMap_congr ?_
  intro i _
  rw [bincount_perm (colAt_perm h i)]

/-- The column pass gives the same order on the row-permuted matrix as
on the original matrix, because per-column label counts are invariant
under any permutation of the rows. -/
theorem colOrder_applyRowPerm {M : List (List Nat)} {ord : List Nat}
    (h : ord.Perm (List.range M.length)) (hM : 0 < M.length)
    (hrect : ∀ r ∈ M, r.length = n_col M) :
    colOrder (applyRowPerm M ord) = colOrder M := by
  unfold colOrder
  rw [majorityCol_applyRowPerm h hM hrect, n_col_applyRowPerm h hM hrect]
  unfold n_com all_order
  rw [all_count_applyRowPerm h]

/-! Inversion of the top-level operations and reindexing facts. -/

theorem permuteNames_ok {names : List String} {ord : List Nat} {res : List String}
    (h : permuteNames names ord = .ok res) :
    res = ord.map (fun i => names.getD i "") := by
  unfold permuteNames at h
  split at h
  · simp only [Except.ok.injEq] at h
    exact h.symm
  · exact Except.noConfusion h

theorem permuteNames_ok_of_lt {names : List String} {ord : List Nat}
    (h : ∀ i ∈ ord, i < names.length) :
    permuteNames names ord = .ok (ord.map (fun i => names.getD i "")) := by
  unfold permuteNames
  have hall : ord.all (fun i => decide (i < names.length)) = true :=
    List.all_eq_true.2 (fun i hi => decide_eq_true (h i hi))
  rw [if_pos hall]

theorem order1_row_ok {M : List (List Nat)} {rn cn : List String}
    {out : List (List Nat) × List String × List String × List Nat}
    (h : plot_com_order1 M rn cn true = .ok out) :
    out = (applyRowPerm M (rowOrder M), (rowOrder M).map (fun i => rn.getD i ""),
      cn, rowOrder M) := by
  unfold plot_com_order1 at h
  rw [if_pos rfl] at h
  cases hpn : permuteNames rn (rowOrder M) with
  | error e =>
    rw [hpn] at h
    exact Except.noConfusion h
  | ok r =>
    rw [hpn] at h
    simp only [Except.ok.injEq] at h
    rw [← h, permuteNames_ok hpn]

theorem order1_col_ok {M : List (List Nat)} {rn cn : List String}
    {out : List (List Nat) × List String × List String × List Nat}
    (h : plot_com_order1 M rn cn false = .ok out) :
    out = (applyColPerm M (colOrder M), rn,
      (colOrder M).map (fun i => cn.getD i ""), colOrder M) := by
  unfold plot_com_order1 at h
  rw [if_neg (fun hc => Bool.noConfusion hc)] at h
  cases hpn : permuteNames cn (colOrder M) with
  | error e =>
    rw [hpn] at h
    exact Except.noConfusion h
  | ok r =>
    rw [hpn] at h
    simp only [Except.ok.injEq] at h
    rw [← h, permuteNames_ok hpn]

theorem order2_ok {M : List (List Nat)} {rn cn : List String}
    {out : List (List Nat) × List String × List String × List Nat × List Nat}
    (h : plot_com_order2 M rn cn = .ok out) :
    out = (applyColPerm (applyRowPerm M (rowOrder M)) (colOrder M),
      (rowOrder M).map (fun i => rn.getD i ""),
      (colOrder M).map (fun i => cn.getD i ""), rowOrder M, colOrder M) := by
  unfold plot_com_order2 at h
  cases hpn : permuteNames rn (rowOrder M) with
  | error e =>
    rw [hpn] at h
    exact Except.noConfusion h
  | ok r =>
    rw [hpn] at h
    cases hpn2 : permuteNames cn (colOrder M) with
    | error e =>
      rw [hpn2] at h
      exact Except.noConfusion h
    | ok c =>
      rw [hpn2] at h
      simp only [Except.ok.injEq] at h
      rw [← h, permuteNames_ok hpn, permuteNames_ok hpn2]

theorem map_getD_of_perm_range {r : List Nat} {ord : List Nat}
    (h : ord.Perm (List.range r.length)) :
    (ord.map (fun j => r.getD j 0)).Perm r := by
  have hm := h.map (fun j => r.getD j 0)
  rwa [map_getD_range r 0] at hm

theorem applyColPerm_flatten_perm {M : List (List Nat)} {ord : List Nat}
    (h : ord.Perm (List.range (n_col M)))
    (hrect : ∀ r ∈ M, r.length = n_col M) :
    (applyColPerm M ord).flatten.Perm M.flatten := by
  refine perm_flatten_of_rows (by simp [applyColPerm]) ?_
  intro i
  by_cases hi : i < M.length
  · have hrow : M.getD i [] ∈ M := by
      rw [List.getD_eq_getElem _ _ hi]
      exact List.getElem_mem hi
    have hlen : (M.getD i []).length = n_col M := hrect _ hrow
    have hgd : (applyColPerm M ord).getD i []
        = ord.map (fun j => (M.getD i []).getD j 0) := by
      unfold applyColPerm
      rw [List.getD_eq_getElem _ _ (by simpa using hi), List.getElem_map,
        ← List.getD_eq_getElem _ _ hi]
    rw [hgd]
    refine map_getD_of_perm_range ?_
    rw [hlen]
    exact h
  · have h1 : (applyColPerm M ord).getD i [] = [] :=
      List.getD_eq_default _ _ (by simp only [applyColPerm, List.length_map]; omega)
    have h2 : M.getD i [] = [] := List.getD_eq_default _ _ (by omega)
    rw [h1, h2]

theorem argsort_perm (l : List Nat) : (argsort l).Perm (List.range l.length) := by
  unfold argsort
  have h := (sortAsc_perm (enumPairs l)).map Prod.fst
  rwa [enumPairs_map_fst] at h

theorem mem_sortAsc_enum {l : List Nat} {p : Nat × Nat}
    (hp : p ∈ sortAsc (enumPairs l)) : p.1 < l.length ∧ p.2 = l.getD p.1 0 :=
  mem_enumPairs ((sortAsc_perm _).mem_iff.1 hp)

theorem filterMap_fst_pairwise {F : Nat → Option (Nat × Nat)}
    (hF : ∀ i p, F i = some p → p.1 = i) :
    ∀ {l : List Nat}, l.Pairwise (· < ·) → (l.filterMap F).Pairwise ltIdx := by
  intro l
  induction l with
  | nil =>
    intro _
    simp
  | cons a t ih =>
    intro hl
    rcases List.pairwise_cons.1 hl with ⟨ha, ht⟩
    cases hFa : F a with
    | none =>
      rw [List.filterMap_cons_none hFa]
      exact ih ht
    | some p =>
      rw [List.filterMap_cons_some hFa]
      refine List.pairwise_cons.2 ⟨?_, ih ht⟩
      intro q hq
      rcases List.mem_filterMap.1 hq with ⟨b, hb, hqb⟩
      have hqb' : q.1 = b := hF b q hqb
      have hpa : p.1 = a := hF a p hFa
      show p.1 < q.1
      rw [hpa, hqb']
      exact ha b hb

theorem majorityRow_pairwise (M : List (List Nat)) (j : Nat) :
    (majorityRow M j).Pairwise ltIdx := by
  unfold majorityRow
  refine filterMap_fst_pairwise ?_ (List.pairwise_lt_range _)
  intro i p hp
  dsimp only at hp
  split at hp
  · cases hp
    rfl
  · cases hp

theorem majorityCol_pairwise (M : List (List Nat)) (j : Nat) :
    (majorityCol M j).Pairwise ltIdx := by
  unfold majorityCol
  refine filterMap_fst_pairwise ?_ (List.pairwise_lt_range _)
  intro i p hp
  dsimp only at hp
  split at hp
  · cases hp
    rfl
  · cases hp

/-! Claim theorems. -/

/-- C1: the claim says the greedy assignment walks the RankingList in
ranking order, most frequent label first. On the matrix
[[1,1],[1,1],[0,0]] the ranking list is [1,0] (label 1 is most
frequent) and rows 0 and 1 have label 1 as their majority label, so a
ranked walk would place them first, giving row order [0,1,2]. The code
instead iterates for i in range(len(all_order)) and reads majority[i]
directly, walking labels in ascending numeric order, and produces
[2,0,1]: the row whose only majority label is the lower-ranked label 0
comes first. This theorem evaluates the embedded code at that input;
the behaviour contradicts the module docstring (step 3 of the majority
rule), so the code, not the claim, is at fault. -/
theorem c1_ranked_walk_code_bug :
    all_order [[1,1],[1,1],[0,0]] = [1,0] ∧
    majorityRow [[1,1],[1,1],[0,0]] 1 = [(0,2),(1,2)] ∧
    majorityRow [[1,1],[1,1],[0,0]] 0 = [(2,2)] ∧
    rowOrder [[1,1],[1,1],[0,0]] = [2,0,1] := by
  decide

/-- C2 counterexample: the claim says ties in the global counts are
broken by ascending label value, which on [[0,1]] (both labels counted
once) would give RankingList [0,1]. The code reverses a stable
ascending argsort, so the tie is broken by descending label value and
the RankingList is [1,0]. -/
theorem c2_tiebreak_counterexample :
    all_order [[0,1]] = [1,0] ∧ ([1,0] : List Nat) ≠ [0,1] := by
  decide

/-- C2 amended: for every input matrix the RankingList is a permutation
of the label values 0..n_com-1 arranged in nonincreasing order of total
count (a property of every correct sort, stable or not), and the
claimed ascending tie-break fails: on count tables of at most 16
entries, where np.argsort runs its stable insertion-sort regime and
the model is exact, equal counts are broken by descending label value;
on longer tables numpy specifies no tie order at all. -/
theorem c2_ranking_sorted (M : List (List Nat)) :
    (all_order M).Perm (List.range (n_com M)) ∧
    (all_order M).Pairwise (fun x y =>
      M.flatten.count y ≤ M.flatten.count x) ∧
    ((all_count M).length ≤ 16 →
      (all_order M).Pairwise (fun x y =>
        M.flatten.count y < M.flatten.count x ∨
          (M.flatten.count x = M.flatten.count y ∧ y < x))) := by
  have hkey : (all_order M).Pairwise (fun x y =>
      M.flatten.count y < M.flatten.count x ∨
        (M.flatten.count x = M.flatten.count y ∧ y < x)) := by
    unfold all_order argsort
    rw [← List.map_reverse, List.pairwise_map]
    have h1 : (sortAsc (enumPairs (all_count M))).Pairwise ascKey :=
      sortAsc_pairwise (enumPairs_pairwise _)
    have h2 : (sortAsc (enumPairs (all_count M))).reverse.Pairwise
        (fun p q => ascKey q p) := List.pairwise_reverse.2 h1
    refine h2.imp_of_mem ?_
    intro p q hp hq hpq
    have hp' := mem_sortAsc_enum (List.mem_reverse.1 hp)
    have hq' := mem_sortAsc_enum (List.mem_reverse.1 hq)
    have hcp : p.2 = M.flatten.count p.1 := by
      rw [hp'.2]
      exact bincount_getD hp'.1
    have hcq : q.2 = M.flatten.count q.1 := by
      rw [hq'.2]
      exact bincount_getD hq'.1
    rcases hpq with hlt | ⟨heq, hidx⟩
    · left
      rw [← hcp, ← hcq]
      exact hlt
    · right
      refine ⟨?_, hidx⟩
      rw [← hcp, ← hcq]
      exact heq.symm
  refine ⟨?_, ?_, fun _ => hkey⟩
  · rw [n_com_eq]
    unfold all_order
    exact (List.reverse_perm _).trans (argsort_perm _)
  · refine hkey.imp ?_
    intro a b hab
    rcases hab with hab | ⟨hab, _⟩
    · exact Nat.le_of_lt hab
    · exact Nat.le_of_eq hab.symm

theorem c2_ranking_sorted_witness :
    (all_count [[0,1]]).length ≤ 16 ∧
    (all_order [[0,1]]).Pairwise (fun x y =>
      ([[0,1]] : List (List Nat)).flatten.count y
          < ([[0,1]] : List (List Nat)).flatten.count x ∨
        (([[0,1]] : List (List Nat)).flatten.count x
            = ([[0,1]] : List (List Nat)).flatten.count y ∧ y < x)) :=
  ⟨by decide, (c2_ranking_sorted [[0,1]]).2.2 (by decide)⟩

/-- C5: on the concrete matrix [[0,0,1],[1,1,0],[0,0,0]] with row names
R0 R1 R2, the rows-only reordering returns row permutation [2,0,1] and
permuted row names [R2, R0, R1] (the column names pass through). -/
theorem c5_concrete_rows_example :
    plot_com_order1 [[0,0,1],[1,1,0],[0,0,0]] ["R0","R1","R2"] ["C0","C1","C2"] true
      = .ok ([[0,0,0],[0,0,1],[1,1,0]], ["R2","R0","R1"], ["C0","C1","C2"],
          [2,0,1]) := by
  rfl

/-- C6: within each label step, the candidate (line index, count)
pairs are recorded in ascending line-index order, and the stable
descending sort arranges them by descending count with equal counts
tie-broken by ascending line index, for the row pass and the column
pass alike. -/
theorem c6_candidate_sort (M : List (List Nat)) (j : Nat) :
    (majorityRow M j).Pairwise ltIdx ∧
    (sortDesc (majorityRow M j)).Perm (majorityRow M j) ∧
    (sortDesc (majorityRow M j)).Pairwise descKey ∧
    (majorityCol M j).Pairwise ltIdx ∧
    (sortDesc (majorityCol M j)).Perm (majorityCol M j) ∧
    (sortDesc (majorityCol M j)).Pairwise descKey :=
  ⟨majorityRow_pairwise M j, sortDesc_perm _,
    sortDesc_pairwise (majorityRow_pairwise M j),
    majorityCol_pairwise M j, sortDesc_perm _,
    sortDesc_pairwise (majorityCol_pairwise M j)⟩

theorem rows_ne_nil {M : List (List Nat)} (hc : 0 < n_col M)
    (hrect : ∀ r ∈ M, r.length = n_col M) : ∀ r ∈ M, r ≠ [] := by
  intro r hr h
  have := hrect r hr
  rw [h] at this
  simp at this
  omega

/-- C3: whenever the matrix is nonempty and rectangular, every
successful reordering operation returns, for each reordered axis, a
permutation of the full range of axis indices. -/
theorem c3_permutation_validity (M : List (List Nat)) (hM : 0 < M.length)
    (hc : 0 < n_col M) (hrect : ∀ r ∈ M, r.length = n_col M) :
    (∀ (rn cn : List String) out, plot_com_order1 M rn cn true = .ok out →
      out.2.2.2.Perm (List.range M.length)) ∧
    (∀ (rn cn : List String) out, plot_com_order1 M rn cn false = .ok out →
      out.2.2.2.Perm (List.range (n_col M))) ∧
    (∀ (rn cn : List String) out, plot_com_order2 M rn cn = .ok out →
      out.2.2.2.1.Perm (List.range M.length) ∧
      out.2.2.2.2.Perm (List.range (n_col M))) := by
  have hne : ∀ r ∈ M, r ≠ [] := rows_ne_nil hc hrect
  refine ⟨?_, ?_, ?_⟩
  · intro rn cn out h
    rw [order1_row_ok h]
    exact rowOrder_perm hne
  · intro rn cn out h
    rw [order1_col_ok h]
    exact colOrder_perm hM
  · intro rn cn out h
    rw [order2_ok h]
    exact ⟨rowOrder_perm hne, colOrder_perm hM⟩

theorem c3_permutation_validity_witness :
    ([2,0,1] : List Nat).Perm (List.range 3) :=
  (c3_permutation_validity [[0,0,1],[1,1,0],[0,0,0]] (by decide) (by decide)
    (by decide)).1 ["R0","R1","R2"] ["C0","C1","C2"]
    ([[0,0,0],[0,0,1],[1,1,0]], ["R2","R0","R1"], ["C0","C1","C2"], [2,0,1])
    (by rfl)

/-- C4: in combined mode the column permutation that plot_com_order2
returns equals the column permutation of the row-permuted matrix (the
computation the spec describes), because per-column label counts are
invariant under any permutation of the rows; the code computes it from
the matrix before row reordering and the two agree. -/
theorem c4_column_pass_equivalence (M : List (List Nat)) (hM : 0 < M.length)
    (hc : 0 < n_col M) (hrect : ∀ r ∈ M, r.length = n_col M) :
    colOrderOnRowPermuted M = colOrder M ∧
    (∀ (rn cn : List String) out, plot_com_order2 M rn cn = .ok out →
      out.2.2.2.2 = colOrderOnRowPermuted M) := by
  have hne := rows_ne_nil hc hrect
  have h1 : colOrderOnRowPermuted M = colOrder M :=
    colOrder_applyRowPerm (rowOrder_perm hne) hM hrect
  refine ⟨h1, ?_⟩
  intro rn cn out h
  rw [order2_ok h, h1]

theorem c4_column_pass_equivalence_witness :
    colOrderOnRowPermuted [[0,0,1],[1,1,0],[0,0,0]]
      = colOrder [[0,0,1],[1,1,0],[0,0,0]] :=
  (c4_column_pass_equivalence [[0,0,1],[1,1,0],[0,0,0]] (by decide) (by decide)
    (by decide)).1

/-- C7: for a nonempty rectangular matrix, the multiset of label values
of the matrix returned by every successful reordering operation is the
multiset of label values of the input matrix. -/
theorem c7_frequency_preservation (M : List (List Nat)) (hM : 0 < M.length)
    (hc : 0 < n_col M) (hrect : ∀ r ∈ M, r.length = n_col M) :
    (∀ (rn cn : List String) out, plot_com_order1 M rn cn true = .ok out →
      out.1.flatten.Perm M.flatten) ∧
    (∀ (rn cn : List String) out, plot_com_order1 M rn cn false = .ok out →
      out.1.flatten.Perm M.flatten) ∧
    (∀ (rn cn : List String) out, plot_com_order2 M rn cn = .ok out →
      out.1.flatten.Perm M.flatten) := by
  have hne := rows_ne_nil hc hrect
  have hro := rowOrder_perm hne
  have hco := colOrder_perm hM
  refine ⟨?_, ?_, ?_⟩
  · intro rn cn out h
    rw [order1_row_ok h]
    exact applyRowPerm_flatten_perm hro
  · intro rn cn out h
    rw [order1_col_ok h]
    exact applyColPerm_flatten_perm hco hrect
  · intro rn cn out h
    rw [order2_ok h]
    have hrect' : ∀ r ∈ applyRowPerm M (rowOrder M),
        r.length = n_col (applyRowPerm M (rowOrder M)) := by
      intro r hr
      rcases List.mem_map.1 hr with ⟨k, hk, rfl⟩
      have hkm : k < M.length := mem_rowOrder_lt hk
      have hmem : M.getD k [] ∈ M := by
        rw [List.getD_eq_getElem _ _ hkm]
        exact List.getElem_mem hkm
      rw [n_col_applyRowPerm hro hM hrect]
      exact hrect _ hmem
    have hco' : (colOrder M).Perm
        (List.range (n_col (applyRowPerm M (rowOrder M)))) := by
      rw [n_col_applyRowPerm hro hM hrect]
      exact hco
    exact (applyColPerm_flatten_perm hco' hrect').trans
      (applyRowPerm_flatten_perm hro)

theorem c7_frequency_preservation_witness :
    ([[0,0,0],[0,0,1],[1,1,0]] : List (List Nat)).flatten.Perm
      ([[0,0,1],[1,1,0],[0,0,0]] : List (List Nat)).flatten :=
  (c7_frequency_preservation [[0,0,1],[1,1,0],[0,0,0]] (by decide) (by decide)
    (by decide)).1 ["R0","R1","R2"] ["C0","C1","C2"]
    ([[0,0,0],[0,0,1],[1,1,0]], ["R2","R0","R1"], ["C0","C1","C2"], [2,0,1])
    (by rfl)

theorem getD_map_names {names : List String} {ord : List Nat} {i : Nat}
    (hi : i < ord.length) :
    (ord.map (fun k => names.getD k "")).getD i ""
      = names.getD (ord.getD i 0) "" := by
  rw [List.getD_eq_getElem _ _ (by simpa using hi), List.getElem_map,
    List.getD_eq_getElem _ _ hi]

/-- C8: the reindexed name list returned by every successful reordering
operation satisfies permuted_names[i] = names[permutation[i]] at every
position i of the permutation, for rows and columns alike. -/
theorem c8_name_alignment (M : List (List Nat)) (rn cn : List String) :
    (∀ out, plot_com_order1 M rn cn true = .ok out →
      ∀ i, i < out.2.2.2.length →
        out.2.1.getD i "" = rn.getD (out.2.2.2.getD i 0) "") ∧
    (∀ out, plot_com_order1 M rn cn false = .ok out →
      ∀ i, i < out.2.2.2.length →
        out.2.2.1.getD i "" = cn.getD (out.2.2.2.getD i 0) "") ∧
    (∀ out, plot_com_order2 M rn cn = .ok out →
      (∀ i, i < out.2.2.2.1.length →
        out.2.1.getD i "" = rn.getD (out.2.2.2.1.getD i 0) "") ∧
      (∀ i, i < out.2.2.2.2.length →
        out.2.2.1.getD i "" = cn.getD (out.2.2.2.2.getD i 0) "")) := by
  refine ⟨?_, ?_, ?_⟩
  · intro out h i hi
    rw [order1_row_ok h] at hi ⊢
    exact getD_map_names hi
  · intro out h i hi
    rw [order1_col_ok h] at hi ⊢
    exact getD_map_names hi
  · intro out h
    constructor
    · intro i hi
      rw [order2_ok h] at hi ⊢
      exact getD_map_names hi
    · intro i hi
      rw [order2_ok h] at hi ⊢
      exact getD_map_names hi

theorem c8_name_alignment_witness :
    (["R2","R0","R1"] : List String).getD 0 ""
      = (["R0","R1","R2"] : List String).getD (([2,0,1] : List Nat).getD 0 0) "" :=
  (c8_name_alignment [[0,0,1],[1,1,0],[0,0,0]] ["R0","R1","R2"]
    ["C0","C1","C2"]).1
    ([[0,0,0],[0,0,1],[1,1,0]], ["R2","R0","R1"], ["C0","C1","C2"], [2,0,1])
    (by rfl) 0 (by decide)

/-- C9 counterexample: the claim says a name list whose length differs
from the axis size is reported as an input-validation error before any
computation. With four row names on a three-row matrix the rows-only
operation performs the whole reordering and returns a successful full
result instead; no validation happens. -/
theorem c9_validation_counterexample :
    (plot_com_order1 [[0,0,1],[1,1,0],[0,0,0]] ["R0","R1","R2","R3"]
      ["C0","C1","C2"] true).isOk = true ∧
    (["R0","R1","R2","R3"] : List String).length
      ≠ ([[0,0,1],[1,1,0],[0,0,0]] : List (List Nat)).length := by
  constructor
  · decide
  · decide

/-- C9 amended: the operations perform no upfront input validation: a
row-name list at least as long as the row count is accepted and the
full reordering result is returned, extra names being silently ignored
(stated for matrices with nonempty rows, where the Python code reaches
the name-reindexing step); a too-short name list produces an index
error at the name-reindexing step, after the permutation and the
reordered matrix have been computed. -/
theorem c9_amended_no_validation :
    (∀ (M : List (List Nat)) (rn cn : List String), (∀ r ∈ M, r ≠ []) →
      M.length ≤ rn.length → (plot_com_order1 M rn cn true).isOk = true) ∧
    plot_com_order1 [[0,0,1],[1,1,0],[0,0,0]] ["R0"] ["C0","C1","C2"] true
      = .error "IndexError: list index out of range" := by
  constructor
  · intro M rn cn _ hlen
    have hok : permuteNames rn (rowOrder M)
        = .ok ((rowOrder M).map (fun i => rn.getD i "")) :=
      permuteNames_ok_of_lt
        (fun i hi => Nat.lt_of_lt_of_le (mem_rowOrder_lt hi) hlen)
    unfold plot_com_order1
    rw [if_pos rfl, hok]
    rfl
  · rfl

theorem c9_amended_no_validation_witness :
    (1 ≤ 2) ∧ (plot_com_order1 [[5]] ["A","B"] [] true).isOk = true :=
  ⟨by decide,
    c9_amended_no_validation.1 [[5]] ["A","B"] [] (by decide) (by decide)⟩

/-- C10: the permutations computed by the reordering operations are a
deterministic function of the matrix alone; they are pure Lean
functions of the matrix (no randomness: the random colours live in the
excluded presentation layer), and changing the name lists while
keeping their lengths leaves the permutation component of the result,
error or not, unchanged. -/
theorem c10_determinism (M : List (List Nat)) (rn1 cn1 rn2 cn2 : List String)
    (b : Bool) (h1 : rn1.length = rn2.length) (h2 : cn1.length = cn2.length) :
    (Except.map (fun out => out.2.2.2) (plot_com_order1 M rn1 cn1 b)
      = Except.map (fun out => out.2.2.2) (plot_com_order1 M rn2 cn2 b)) ∧
    (Except.map (fun out => out.2.2.2) (plot_com_order2 M rn1 cn1)
      = Except.map (fun out => out.2.2.2) (plot_com_order2 M rn2 cn2)) := by
  constructor
  · cases b with
    | false =>
      unfold plot_com_order1 permuteNames
      rw [if_neg (show ¬(false = true) from fun hc => Bool.noConfusion hc)]
      by_cases hall : (colOrder M).all (fun i => decide (i < cn1.length)) = true
      · have hall2 : (colOrder M).all (fun i => decide (i < cn2.length)) = true := by
          rw [← h2]
          exact hall
        rw [if_pos hall, if_pos hall2]
        rfl
      · have hall2 : ¬(colOrder M).all (fun i => decide (i < cn2.length)) = true := by
          rw [← h2]
          exact hall
        rw [if_neg hall, if_neg hall2]
        rfl
    | true =>
      unfold plot_com_order1 permuteNames
      rw [if_pos (show (true = true) from rfl)]
      by_cases hall : (rowOrder M).all (fun i => decide (i < rn1.length)) = true
      · have hall2 : (rowOrder M).all (fun i => decide (i < rn2.length)) = true := by
          rw [← h1]
          exact hall
        rw [if_pos hall, if_pos hall2]
        rfl
      · have hall2 : ¬(rowOrder M).all (fun i => decide (i < rn2.length)) = true := by
          rw [← h1]
          exact hall
        rw [if_neg hall, if_neg hall2]
        rfl
  · unfold plot_com_order2 permuteNames
    by_cases hr : (rowOrder M).all (fun i => decide (i < rn1.length)) = true
    · have hr2 : (rowOrder M).all (fun i => decide (i < rn2.length)) = true := by
        rw [← h1]
        exact hr
      rw [if_pos hr, if_pos hr2]
      by_cases hc : (colOrder M).all (fun i => decide (i < cn1.length)) = true
      · have hc2 : (colOrder M).all (fun i => decide (i < cn2.length)) = true := by
          rw [← h2]
          exact hc
        rw [if_pos hc, if_pos hc2]
        rfl
      · have hc2 : ¬(colOrder M).all (fun i => decide (i < cn2.length)) = true := by
          rw [← h2]
          exact hc
        rw [if_neg hc, if_neg hc2]
    · have hr2 : ¬(rowOrder M).all (fun i => decide (i < rn2.length)) = true := by
        rw [← h1]
        exact hr
      rw [if_neg hr, if_neg hr2]

theorem c10_determinism_witness :
    Except.map (fun out => out.2.2.2)
        (plot_com_order1 [[0,1]] ["A","B"] ["C","D"] true)
      = Except.map (fun out => out.2.2.2)
        (plot_com_order1 [[0,1]] ["X","Y"] ["U","V"] true) :=
  (c10_determinism [[0,1]] ["A","B"] ["C","D"] ["X","Y"] ["U","V"] true
    rfl rfl).1

end Plot2D
